import Mathlib

/-!
Verification of the attention-to-metrics computation engine of the
`correlation` repository, shallowly embedded in Lean 4.

Numbers are modelled as rationals (the source performs only field
operations and comparisons on IEEE doubles; all the claims under study
are exact-arithmetic statements).  Matrices are `List (List ℚ)` with the
source's `attention[t][s]` read as `(A.getD t []).getD s 0`, matching
JavaScript array indexing on in-range indices (every theorem below that
inspects entries carries the squareness hypotheses making all reads
in-range).  Index sets (`unknownTokenIndices`, `knownTokenIndices`,
`punctuationIndices`) are `List ℕ` with `List.includes` rendered as
membership, and the per-token flag arrays produced by `.map((v, i) => …)`
are rendered as functions of the index.
-/

namespace Correlation

/-- Entry read `A[t][s]` of a matrix stored as a list of rows. -/
def entry (A : List (List ℚ)) (t s : ℕ) : ℚ := (A.getD t []).getD s 0

/-- `Math.min(...l)` behind the source's `l.length > 0 ? … : d` guard:
the minimum of a nonempty list, `d` when the list is empty. -/
def listMinD (l : List ℚ) (d : ℚ) : ℚ :=
  match l with
  | [] => d
  | x :: xs => xs.foldl min x

/-- `Math.max(...l)` behind the source's `l.length > 0 ? … : d` guard. -/
def listMaxD (l : List ℚ) (d : ℚ) : ℚ :=
  match l with
  | [] => d
  | x :: xs => xs.foldl max x

/-- `row.reduce((a, b) => a + b, 0)`: sum of a row. -/
def rowSum (row : List ℚ) : ℚ := row.foldl (· + ·) 0

/-- `matrix.reduce((sum, row) => sum + row[i], 0)`: sum of column `i`. -/
def colSum (A : List (List ℚ)) (i : ℕ) : ℚ :=
  A.foldl (fun sum row => sum + row.getD i 0) 0

end Correlation

namespace Comprehension

open Correlation

/-- Return type of `computeComprehension` (src/unnamed/part_001, lines 1-5). -/
structure ComprehensionScores where
  benefit : List ℚ
  provisionQuality : List ℚ
  effort : List ℚ
deriving DecidableEq, Repr

/-- The knownness weight vector `k` of `computeComprehension`
(src/unnamed/part_001, line 23): the caller's array when it has the right
length, otherwise all ones. -/
def kweight (knownness : Option (List ℚ)) (n : ℕ) : ℕ → ℚ :=
  match knownness with
  | some l => if l.length = n then (fun s => l.getD s 1) else fun _ => 1
  | none => fun _ => 1

/-- `leftIntegration[t]` (src/unnamed/part_001, lines 27-44): inverse-distance
decayed attention received from sources strictly to the left. -/
def leftIntegration (n : ℕ) (f : ℕ → ℕ → ℚ) (k : ℕ → ℚ) (t : ℕ) : ℚ :=
  ∑ s ∈ Finset.range n, if s < t then f t s * k s / (1 + ((t - s : ℕ) : ℚ)) else 0

/-- `rightIntegration[t]` (src/unnamed/part_001, lines 27-44). -/
def rightIntegration (n : ℕ) (f : ℕ → ℕ → ℚ) (k : ℕ → ℚ) (t : ℕ) : ℚ :=
  ∑ s ∈ Finset.range n, if t < s then f t s * k s / (1 + ((s - t : ℕ) : ℚ)) else 0

/-- `integrationRaw` (line 45): left + half of right. -/
def integrationRaw (n : ℕ) (f : ℕ → ℕ → ℚ) (k : ℕ → ℚ) (t : ℕ) : ℚ :=
  leftIntegration n f k t + (1/2) * rightIntegration n f k t

/-- `Math.max(0, ...list)` over the values of `g` on `0..n-1`, as the source
computes it by spreading the array into `Math.max` together with `0`. -/
def maxWith0 (n : ℕ) (g : ℕ → ℚ) : ℚ := ((List.range n).map g).foldl max 0

/-- `Math.min(0, ...list)` over the values of `g` on `0..n-1`. -/
def minWith0 (n : ℕ) (g : ℕ → ℚ) : ℚ := ((List.range n).map g).foldl min 0

/-- `integration` (lines 46-47): raw integration divided by its global max,
or all zeros when the max is not positive. -/
def integration (n : ℕ) (f : ℕ → ℕ → ℚ) (k : ℕ → ℚ) (t : ℕ) : ℚ :=
  if 0 < maxWith0 n (integrationRaw n f k) then
    integrationRaw n f k t / maxWith0 n (integrationRaw n f k)
  else 0

/-- `rightContrib[t]` (lines 50-67): decayed attention the target projects to
sources strictly to the right. -/
def rightContrib (n : ℕ) (f : ℕ → ℕ → ℚ) (k : ℕ → ℚ) (t : ℕ) : ℚ :=
  ∑ s ∈ Finset.range n, if t < s then f t s * k s / (1 + ((s - t : ℕ) : ℚ)) else 0

/-- `leftContrib[t]` (lines 50-67). -/
def leftContrib (n : ℕ) (f : ℕ → ℕ → ℚ) (k : ℕ → ℚ) (t : ℕ) : ℚ :=
  ∑ s ∈ Finset.range n, if s < t then f t s * k s / (1 + ((t - s : ℕ) : ℚ)) else 0

/-- `rightContribNorm` (lines 68-70): right contributions divided by their own
global max. -/
def rightContribNorm (n : ℕ) (f : ℕ → ℕ → ℚ) (k : ℕ → ℚ) (t : ℕ) : ℚ :=
  if 0 < maxWith0 n (rightContrib n f k) then
    rightContrib n f k t / maxWith0 n (rightContrib n f k)
  else 0

/-- `leftContribNorm` (lines 69-71). -/
def leftContribNorm (n : ℕ) (f : ℕ → ℕ → ℚ) (k : ℕ → ℚ) (t : ℕ) : ℚ :=
  if 0 < maxWith0 n (leftContrib n f k) then
    leftContrib n f k t / maxWith0 n (leftContrib n f k)
  else 0

/-- `contributionRaw` (line 72). -/
def contributionRaw (n : ℕ) (f : ℕ → ℕ → ℚ) (k : ℕ → ℚ) (t : ℕ) : ℚ :=
  rightContribNorm n f k t - (1/2) * leftContribNorm n f k t

/-- `minCR = Math.min(0, ...contributionRaw)` (line 73). -/
def minCR (n : ℕ) (f : ℕ → ℕ → ℚ) (k : ℕ → ℚ) : ℚ :=
  minWith0 n (contributionRaw n f k)

/-- `maxCR = Math.max(0, ...contributionRaw)` (line 74). -/
def maxCR (n : ℕ) (f : ℕ → ℕ → ℚ) (k : ℕ → ℚ) : ℚ :=
  maxWith0 n (contributionRaw n f k)

/-- `contribution` (lines 75-77): min-max rescaling of the raw contributions,
all zeros in the degenerate case. -/
def contribution (n : ℕ) (f : ℕ → ℕ → ℚ) (k : ℕ → ℚ) (t : ℕ) : ℚ :=
  if minCR n f k < maxCR n f k then
    (contributionRaw n f k t - minCR n f k) / (maxCR n f k - minCR n f k)
  else 0

/-- `effortRaw` (line 80). -/
def effortRaw (n : ℕ) (f : ℕ → ℕ → ℚ) (k : ℕ → ℚ) (t : ℕ) : ℚ :=
  (1 - integration n f k t) + (1 - contribution n f k t)

/-- `effort` (lines 81-82). -/
def effort (n : ℕ) (f : ℕ → ℕ → ℚ) (k : ℕ → ℚ) (t : ℕ) : ℚ :=
  if 0 < maxWith0 n (effortRaw n f k) then
    effortRaw n f k t / maxWith0 n (effortRaw n f k)
  else 0

/-- The numeric body of `computeComprehension` packaged over an entry
function: the three output arrays of length `n` (line 85 maps
benefit to integration and provisionQuality to contribution). -/
def coreScores (n : ℕ) (f : ℕ → ℕ → ℚ) (k : ℕ → ℚ) : ComprehensionScores where
  benefit := (List.range n).map (integration n f k)
  provisionQuality := (List.range n).map (contribution n f k)
  effort := (List.range n).map (effort n f k)

/-- `computeComprehension` (src/unnamed/part_001, lines 12-86): empty input
short-circuits to empty arrays; a first-row length different from the row
count raises the squareness error; otherwise the scores are computed. -/
def computeComprehension (attention : List (List ℚ))
    (knownness : Option (List ℚ)) : Except String ComprehensionScores :=
  let n := attention.length
  if n = 0 then .ok ⟨[], [], []⟩
  else
    let m := (attention.headD []).length
    if n ≠ m then .error "Attention matrix must be square [n x n]."
    else .ok (coreScores n (entry attention) (kweight knownness n))

/-- `maskAttentionByReadIndex` (src/unnamed/part_001, lines 88-101): rebuild
an `n × n` matrix keeping only sources `s ≤ readIndex`. -/
def maskAttentionByReadIndex (attention : List (List ℚ)) (readIndex : ℕ) :
    List (List ℚ) :=
  let n := attention.length
  (List.range n).map fun t =>
    (List.range n).map fun s =>
      if s ≤ readIndex then (attention.getD t []).getD s 0 else 0

/-- `computeEffortTimeline` (src/unnamed/part_001, lines 107-120): one effort
frame per reading index.  The inner `computeComprehension` call never errors
(the mask is square by construction), so the `.error` fallback is dead code. -/
def computeEffortTimeline (attention : List (List ℚ))
    (knownness : Option (List ℚ)) : List (List ℚ) :=
  let n := attention.length
  if n = 0 then []
  else
    (List.range n).map fun i =>
      match computeComprehension (maskAttentionByReadIndex attention i) knownness with
      | .ok r => r.effort
      | .error _ => []

end Comprehension

namespace Heatmap

open Correlation

/-!
Embedding of the numeric pipeline of the `AttentionHeatmap` component
(src/unnamed/part_000).  `n` is `words.length`, which the component
implicitly equates with the attention matrix size; here `n := A.length`.
All list constructions are pure, so the caller's matrix is never mutated:
`displayAttention` builds fresh rows exactly as the source's
`row.map(() => 0)` / `[...row]` do.
-/

/-- `displayAttention` (src/unnamed/part_000, lines 45-49): rows of unknown
tokens are replaced by all-zero rows of the same length; every other row is
copied unchanged. -/
def displayAttention (A : List (List ℚ)) (unk : List ℕ) : List (List ℚ) :=
  A.mapIdx fun i row => if i ∈ unk then row.map (fun _ => 0) else row

/-- `provided` (line 52): row sums of `displayAttention`. -/
def provided (A : List (List ℚ)) (unk : List ℕ) : List ℚ :=
  (displayAttention A unk).map rowSum

/-- `received` (line 53): column sums of `displayAttention`, one per word. -/
def received (A : List (List ℚ)) (unk : List ℕ) : List ℚ :=
  (List.range A.length).map (colSum (displayAttention A unk))

/-- `originalReceived` (line 56): column sums of the original matrix. -/
def originalReceived (A : List (List ℚ)) : List ℚ :=
  (List.range A.length).map (colSum A)

/-- `nonPunctuationOriginalReceived` (line 59): `originalReceived` with the
punctuation positions filtered out (filtering the value list by index equals
mapping over the filtered index range). -/
def nonPunctuationOriginalReceived (A : List (List ℚ)) (punct : List ℕ) : List ℚ :=
  ((List.range A.length).filter (fun i => i ∉ punct)).map (colSum A)

/-- `originalMinReceived` (line 60). -/
def originalMinReceived (A : List (List ℚ)) (punct : List ℕ) : ℚ :=
  listMinD (nonPunctuationOriginalReceived A punct) 0

/-- `originalMaxReceived` (line 61). -/
def originalMaxReceived (A : List (List ℚ)) (punct : List ℕ) : ℚ :=
  listMaxD (nonPunctuationOriginalReceived A punct) 1

/-- `nonUnknownNonPunctuationIndices` (line 64). -/
def nonUnknownNonPunctuationIndices (A : List (List ℚ)) (unk punct : List ℕ) : List ℕ :=
  (List.range A.length).filter (fun i => i ∉ unk ∧ i ∉ punct)

/-- `minProvided` (line 65). -/
def minProvided (A : List (List ℚ)) (unk punct : List ℕ) : ℚ :=
  listMinD ((nonUnknownNonPunctuationIndices A unk punct).map
    (fun i => (provided A unk).getD i 0)) 0

/-- `maxProvided` (line 66). -/
def maxProvided (A : List (List ℚ)) (unk punct : List ℕ) : ℚ :=
  listMaxD ((nonUnknownNonPunctuationIndices A unk punct).map
    (fun i => (provided A unk).getD i 0)) 1

/-- `normProvided` before the known-token loop (lines 67-71); the JavaScript
truthiness test `maxProvided - minProvided ? … : 0` is a `≠ 0` test. -/
def normProvided0 (A : List (List ℚ)) (unk punct : List ℕ) (i : ℕ) : ℚ :=
  if i ∈ unk ∨ i ∈ punct then 0
  else if maxProvided A unk punct - minProvided A unk punct ≠ 0 then
    ((provided A unk).getD i 0 - minProvided A unk punct) /
      (maxProvided A unk punct - minProvided A unk punct)
  else 0

/-- `normReceived` before the known-token loop (lines 73-77): normalized over
the range of the ORIGINAL matrix's received totals, punctuation pinned to 0. -/
def normReceived0 (A : List (List ℚ)) (unk punct : List ℕ) (i : ℕ) : ℚ :=
  if i ∈ punct then 0
  else if originalMaxReceived A punct - originalMinReceived A punct ≠ 0 then
    ((received A unk).getD i 0 - originalMinReceived A punct) /
      (originalMaxReceived A punct - originalMinReceived A punct)
  else 0

/-- One iteration of `knownTokenIndices.forEach` (lines 83-100), acting on the
pair (normReceivedCopy, normProvidedCopy).  Note the source reads
`attention[j][iKnown]` and `totalAttentionToKnown` from the ORIGINAL matrix
`attention`, not from `displayAttention`. -/
def knownStep (A : List (List ℚ)) (st : (ℕ → ℚ) × (ℕ → ℚ)) (iKnown : ℕ) :
    (ℕ → ℚ) × (ℕ → ℚ) :=
  let prev := st.1 iKnown
  let recv := fun i => if i = iKnown then 1 else st.1 i
  let total := colSum A iKnown
  let delta := 1 - prev
  let prov :=
    if 0 < total ∧ 0 < delta then
      fun j => if j ≠ iKnown ∧ 0 < entry A j iKnown then
          st.2 j + entry A j iKnown / total * delta
        else st.2 j
    else st.2
  (recv, prov)

/-- The state after the whole known-token loop (lines 80-103); a fold over
`knownTokenIndices` starting from the pre-loop vectors (the source's
`length > 0` guard is redundant: the fold over `[]` is the identity). -/
def adjustState (A : List (List ℚ)) (unk knownL punct : List ℕ) : (ℕ → ℚ) × (ℕ → ℚ) :=
  knownL.foldl (knownStep A) (normReceived0 A unk punct, normProvided0 A unk punct)

/-- Final `normReceived` (line 101). -/
def normReceivedFinal (A : List (List ℚ)) (unk knownL punct : List ℕ) (i : ℕ) : ℚ :=
  (adjustState A unk knownL punct).1 i

/-- Final `normProvided` (line 102). -/
def normProvidedFinal (A : List (List ℚ)) (unk knownL punct : List ℕ) (i : ℕ) : ℚ :=
  (adjustState A unk knownL punct).2 i

/-- `rawSums` entry for word `i` (lines 132-136): unknown words score only on
`totalReceived`; others on `totalReceived + totalProvided`. -/
def rawSumAt (A : List (List ℚ)) (unk : List ℕ) (i : ℕ) : ℚ :=
  if i ∈ unk then (received A unk).getD i 0
  else (received A unk).getD i 0 + (provided A unk).getD i 0

/-- `nonPunctuationRawSums` (line 139). -/
def nonPunctuationRawSums (A : List (List ℚ)) (unk punct : List ℕ) : List ℚ :=
  ((List.range A.length).filter (fun i => i ∉ punct)).map (rawSumAt A unk)

/-- `minRawSum` (line 142). -/
def minRawSum (A : List (List ℚ)) (unk punct : List ℕ) : ℚ :=
  listMinD (nonPunctuationRawSums A unk punct) 0

/-- `maxRawSum` (line 143). -/
def maxRawSum (A : List (List ℚ)) (unk punct : List ℕ) : ℚ :=
  listMaxD (nonPunctuationRawSums A unk punct) 1

/-- `normalizedSums` (lines 144-148): min-max rescaling of the raw sums over
the non-punctuation range, punctuation pinned to 0. -/
def normalizedSums (A : List (List ℚ)) (unk punct : List ℕ) (i : ℕ) : ℚ :=
  if i ∈ punct then 0
  else if maxRawSum A unk punct - minRawSum A unk punct ≠ 0 then
    (rawSumAt A unk i - minRawSum A unk punct) /
      (maxRawSum A unk punct - minRawSum A unk punct)
  else 0

end Heatmap

/-! ### List-level helper lemmas -/

namespace Correlation

theorem foldl_add_eq (l : List ℚ) (a : ℚ) : l.foldl (· + ·) a = a + l.sum := by
  induction l generalizing a with
  | nil => simp
  | cons x xs ih => rw [List.foldl_cons, ih, List.sum_cons]; ring

theorem sum_map_getD {α : Type} (l : List α) (g : α → ℚ) (d : α) :
    (l.map g).sum = ∑ t ∈ Finset.range l.length, g (l.getD t d) := by
  induction l with
  | nil => simp
  | cons x xs ih =>
    rw [List.map_cons, List.sum_cons, ih, List.length_cons, Finset.sum_range_succ']
    simp [List.getD_cons_succ, List.getD_cons_zero, add_comm]

theorem rowSum_eq (row : List ℚ) :
    rowSum row = ∑ s ∈ Finset.range row.length, row.getD s 0 := by
  have h := sum_map_getD row id 0
  simpa [rowSum, foldl_add_eq] using h

theorem colSum_eq (A : List (List ℚ)) (i : ℕ) :
    colSum A i = ∑ t ∈ Finset.range A.length, entry A t i := by
  have h1 : colSum A i = (A.map (fun row => row.getD i 0)).foldl (· + ·) 0 := by
    rw [colSum, List.foldl_map]
  rw [h1, foldl_add_eq, zero_add, sum_map_getD _ _ []]
  rfl

theorem foldl_min_le_init (l : List ℚ) (a : ℚ) : l.foldl min a ≤ a := by
  induction l generalizing a with
  | nil => simp
  | cons x xs ih => exact le_trans (ih (min a x)) (min_le_left a x)

theorem foldl_min_le_mem (l : List ℚ) (a : ℚ) {x : ℚ} (hx : x ∈ l) :
    l.foldl min a ≤ x := by
  induction l generalizing a with
  | nil => cases hx
  | cons y ys ih =>
    rcases List.mem_cons.mp hx with h | h
    · subst h
      exact le_trans (foldl_min_le_init ys (min a x)) (min_le_right a x)
    · exact ih (min a y) h

theorem foldl_min_mem (l : List ℚ) (a : ℚ) : l.foldl min a = a ∨ l.foldl min a ∈ l := by
  induction l generalizing a with
  | nil => left; rfl
  | cons x xs ih =>
    rw [List.foldl_cons]
    rcases ih (min a x) with h | h
    · rw [h]
      rcases le_total a x with hax | hax
      · left; exact min_eq_left hax
      · right; rw [min_eq_right hax]; exact List.mem_cons_self x xs
    · right; exact List.mem_cons_of_mem x h

theorem le_foldl_max_init (l : List ℚ) (a : ℚ) : a ≤ l.foldl max a := by
  induction l generalizing a with
  | nil => simp
  | cons x xs ih => exact le_trans (le_max_left a x) (ih (max a x))

theorem le_foldl_max_mem (l : List ℚ) (a : ℚ) {x : ℚ} (hx : x ∈ l) :
    x ≤ l.foldl max a := by
  induction l generalizing a with
  | nil => cases hx
  | cons y ys ih =>
    rcases List.mem_cons.mp hx with h | h
    · subst h
      exact le_trans (le_max_right a x) (le_foldl_max_init ys (max a x))
    · exact ih (max a y) h

theorem foldl_max_mem (l : List ℚ) (a : ℚ) : l.foldl max a = a ∨ l.foldl max a ∈ l := by
  induction l generalizing a with
  | nil => left; rfl
  | cons x xs ih =>
    rw [List.foldl_cons]
    rcases ih (max a x) with h | h
    · rw [h]
      rcases le_total a x with hax | hax
      · right; rw [max_eq_right hax]; exact List.mem_cons_self x xs
      · left; exact max_eq_left hax
    · right; exact List.mem_cons_of_mem x h

theorem listMinD_mem (l : List ℚ) (d : ℚ) (h : l ≠ []) : listMinD l d ∈ l := by
  match l with
  | [] => exact absurd rfl h
  | x :: xs =>
    rcases foldl_min_mem xs x with h1 | h1
    · rw [listMinD, h1]; exact List.mem_cons_self x xs
    · exact List.mem_cons_of_mem x (by rw [listMinD]; exact h1)

theorem listMinD_le (l : List ℚ) (d : ℚ) {x : ℚ} (hx : x ∈ l) : listMinD l d ≤ x := by
  match l with
  | [] => cases hx
  | y :: ys =>
    rw [listMinD]
    rcases List.mem_cons.mp hx with h | h
    · subst h; exact foldl_min_le_init ys x
    · exact foldl_min_le_mem ys y h

theorem listMaxD_mem (l : List ℚ) (d : ℚ) (h : l ≠ []) : listMaxD l d ∈ l := by
  match l with
  | [] => exact absurd rfl h
  | x :: xs =>
    rcases foldl_max_mem xs x with h1 | h1
    · rw [listMaxD, h1]; exact List.mem_cons_self x xs
    · exact List.mem_cons_of_mem x (by rw [listMaxD]; exact h1)

theorem le_listMaxD (l : List ℚ) (d : ℚ) {x : ℚ} (hx : x ∈ l) : x ≤ listMaxD l d := by
  match l with
  | [] => cases hx
  | y :: ys =>
    rw [listMaxD]
    rcases List.mem_cons.mp hx with h | h
    · subst h; exact le_foldl_max_init ys x
    · exact le_foldl_max_mem ys y h

theorem getD_map_lt {α β : Type} (l : List α) (g : α → β) {i : ℕ} (h : i < l.length)
    (d : β) (d' : α) : (l.map g).getD i d = g (l.getD i d') := by
  rw [List.getD_eq_getElem _ _ (by simpa using h), List.getElem_map,
    List.getD_eq_getElem _ _ h]

theorem getD_range_map {β : Type} (n : ℕ) (g : ℕ → β) {i : ℕ} (h : i < n) (d : β) :
    ((List.range n).map g).getD i d = g i := by
  rw [getD_map_lt _ _ (by simpa using h) d 0,
    List.getD_eq_getElem _ _ (by simpa using h), List.getElem_range]

theorem entry_eq_zero_of_len_le (A : List (List ℚ)) {t : ℕ} (h : A.length ≤ t)
    (s : ℕ) : entry A t s = 0 := by
  rw [entry, List.getD_eq_default _ _ h]
  rfl

end Correlation

/-! ### `AttentionHeatmap` pipeline lemmas -/

namespace Heatmap

open Correlation

theorem length_displayAttention (A : List (List ℚ)) (unk : List ℕ) :
    (displayAttention A unk).length = A.length := by
  simp [displayAttention]

theorem displayAttention_getD_not_mem (A : List (List ℚ)) (unk : List ℕ) {i : ℕ}
    (hu : i ∉ unk) (hi : i < A.length) :
    (displayAttention A unk).getD i [] = A.getD i [] := by
  rw [displayAttention,
    List.getD_eq_getElem _ _ (by simpa using hi), List.getElem_mapIdx, if_neg hu,
    List.getD_eq_getElem _ _ hi]

theorem displayAttention_getD_mem (A : List (List ℚ)) (unk : List ℕ) {i : ℕ}
    (hu : i ∈ unk) (hi : i < A.length) :
    (displayAttention A unk).getD i [] = (A.getD i []).map (fun _ => (0 : ℚ)) := by
  rw [displayAttention,
    List.getD_eq_getElem _ _ (by simpa using hi), List.getElem_mapIdx, if_pos hu,
    List.getD_eq_getElem _ _ hi]

theorem getD_map_zero (row : List ℚ) (j : ℕ) :
    (row.map (fun _ => (0 : ℚ))).getD j 0 = 0 := by
  induction row generalizing j with
  | nil => rfl
  | cons x xs ih => cases j with
    | zero => rfl
    | succ j => exact ih j

theorem entry_displayAttention (A : List (List ℚ)) (unk : List ℕ) (i j : ℕ) :
    entry (displayAttention A unk) i j = if i ∈ unk then 0 else entry A i j := by
  by_cases hi : i < A.length
  · by_cases hu : i ∈ unk
    · rw [if_pos hu, entry, displayAttention_getD_mem A unk hu hi, getD_map_zero]
    · rw [if_neg hu, entry, entry, displayAttention_getD_not_mem A unk hu hi]
  · have h1 : A.length ≤ i := le_of_not_lt hi
    rw [entry_eq_zero_of_len_le _ (by rwa [length_displayAttention]),
      entry_eq_zero_of_len_le A h1]
    simp

theorem received_getD (A : List (List ℚ)) (unk : List ℕ) {i : ℕ} (hi : i < A.length) :
    (received A unk).getD i 0 = colSum (displayAttention A unk) i := by
  rw [received, getD_range_map _ _ hi]

theorem provided_getD (A : List (List ℚ)) (unk : List ℕ) {i : ℕ} (hi : i < A.length) :
    (provided A unk).getD i 0 = rowSum ((displayAttention A unk).getD i []) := by
  rw [provided, getD_map_lt _ _ (by rwa [length_displayAttention]) 0 []]

theorem knownStep_fst (A : List (List ℚ)) (st : (ℕ → ℚ) × (ℕ → ℚ)) (k i : ℕ) :
    (knownStep A st k).1 i = if i = k then 1 else st.1 i := rfl

theorem foldl_knownStep_fst (A : List (List ℚ)) (l : List ℕ) (st : (ℕ → ℚ) × (ℕ → ℚ))
    (i : ℕ) : (l.foldl (knownStep A) st).1 i = if i ∈ l then 1 else st.1 i := by
  induction l generalizing st with
  | nil => simp
  | cons a l ih =>
    rw [List.foldl_cons, ih]
    by_cases h : i ∈ l
    · simp [h]
    · by_cases h2 : i = a
      · simp [h, h2, knownStep_fst]
      · simp [h, h2, knownStep_fst]

theorem knownStep_snd_mono (A : List (List ℚ)) (st : (ℕ → ℚ) × (ℕ → ℚ)) (k j : ℕ) :
    st.2 j ≤ (knownStep A st k).2 j := by
  simp only [knownStep]
  split_ifs with hg
  · dsimp only
    split_ifs with hj
    · have : 0 < entry A j k / colSum A k * (1 - st.1 k) :=
        mul_pos (div_pos hj.2 hg.1) hg.2
      linarith
    · exact le_refl _
  · exact le_refl _

theorem foldl_knownStep_snd_mono (A : List (List ℚ)) (l : List ℕ)
    (st : (ℕ → ℚ) × (ℕ → ℚ)) (j : ℕ) : st.2 j ≤ (l.foldl (knownStep A) st).2 j := by
  induction l generalizing st with
  | nil => simp
  | cons a l ih =>
    rw [List.foldl_cons]
    exact le_trans (knownStep_snd_mono A st a j) (ih (knownStep A st a))

theorem knownStep_snd_boost (A : List (List ℚ)) (st : (ℕ → ℚ) × (ℕ → ℚ)) {k j : ℕ}
    (htot : 0 < colSum A k) (hdelta : st.1 k < 1) (hjk : j ≠ k)
    (hpos : 0 < entry A j k) :
    (knownStep A st k).2 j = st.2 j + entry A j k / colSum A k * (1 - st.1 k) := by
  simp only [knownStep]
  split_ifs with hg
  · dsimp only
    rw [if_pos ⟨hjk, hpos⟩]
  · exact absurd ⟨htot, by linarith⟩ hg

theorem knownStep_snd_eq_of_not (A : List (List ℚ)) (st : (ℕ → ℚ) × (ℕ → ℚ))
    {k j : ℕ} (h : ¬(j ≠ k ∧ 0 < entry A j k)) :
    (knownStep A st k).2 j = st.2 j := by
  simp only [knownStep]
  split_ifs with hg
  · dsimp only
    rw [if_neg h]
  · rfl

theorem colSum_pos (A : List (List ℚ)) {k j : ℕ} (hcol : ∀ t, 0 ≤ entry A t k)
    (hpos : 0 < entry A j k) : 0 < colSum A k := by
  have hjlen : j < A.length := by
    by_contra h
    rw [entry_eq_zero_of_len_le A (le_of_not_lt h) k] at hpos
    exact lt_irrefl 0 hpos
  rw [colSum_eq]
  exact Finset.sum_pos' (fun t _ => hcol t) ⟨j, Finset.mem_range.mpr hjlen, hpos⟩

theorem foldl_knownStep_snd_lt (A : List (List ℚ)) (l : List ℕ)
    (st : (ℕ → ℚ) × (ℕ → ℚ)) {k j : ℕ} (hk : k ∈ l) (hrec : st.1 k < 1)
    (hcol : ∀ t, 0 ≤ entry A t k) (hjk : j ≠ k) (hpos : 0 < entry A j k) :
    st.2 j < (l.foldl (knownStep A) st).2 j := by
  induction l generalizing st with
  | nil => cases hk
  | cons a l ih =>
    rw [List.foldl_cons]
    by_cases ha : k = a
    · subst ha
      have htot : 0 < colSum A k := colSum_pos A hcol hpos
      have hb := knownStep_snd_boost A st htot hrec hjk hpos
      have hstrict : st.2 j < (knownStep A st k).2 j := by
        rw [hb]
        have : 0 < entry A j k / colSum A k * (1 - st.1 k) :=
          mul_pos (div_pos hpos htot) (by linarith)
        linarith
      exact lt_of_lt_of_le hstrict (foldl_knownStep_snd_mono A l _ j)
    · have hk' : k ∈ l := by
        rcases List.mem_cons.mp hk with h | h
        · exact absurd h ha
        · exact h
      have hrec' : (knownStep A st a).1 k < 1 := by
        rw [knownStep_fst, if_neg ha]; exact hrec
      exact lt_of_le_of_lt (knownStep_snd_mono A st a j) (ih _ hk' hrec')

theorem displayAttention_no_unknown (A : List (List ℚ)) : displayAttention A [] = A := by
  apply List.ext_getElem (by simp [displayAttention])
  intro i h1 h2
  simp [displayAttention]

end Heatmap

/-! ### `computeComprehension` structural lemmas -/

namespace Comprehension

open Correlation

theorem coreScores_congr_offdiag (n : ℕ) (f g : ℕ → ℕ → ℚ) (k : ℕ → ℚ)
    (h : ∀ t s, s ≠ t → f t s = g t s) : coreScores n f k = coreScores n g k := by
  have hL : leftIntegration n f k = leftIntegration n g k := by
    funext t
    unfold leftIntegration
    refine Finset.sum_congr rfl fun s _ => ?_
    split_ifs with hlt
    · rw [h t s (Nat.ne_of_lt hlt)]
    · rfl
  have hR : rightIntegration n f k = rightIntegration n g k := by
    funext t
    unfold rightIntegration
    refine Finset.sum_congr rfl fun s _ => ?_
    split_ifs with hlt
    · rw [h t s (Nat.ne_of_lt' hlt)]
    · rfl
  have hRC : rightContrib n f k = rightContrib n g k := by
    funext t
    unfold rightContrib
    refine Finset.sum_congr rfl fun s _ => ?_
    split_ifs with hlt
    · rw [h t s (Nat.ne_of_lt' hlt)]
    · rfl
  have hLC : leftContrib n f k = leftContrib n g k := by
    funext t
    unfold leftContrib
    refine Finset.sum_congr rfl fun s _ => ?_
    split_ifs with hlt
    · rw [h t s (Nat.ne_of_lt hlt)]
    · rfl
  have h1 : integrationRaw n f k = integrationRaw n g k := by
    funext t; unfold integrationRaw; rw [hL, hR]
  have h2 : integration n f k = integration n g k := by
    funext t; unfold integration; rw [h1]
  have h3 : rightContribNorm n f k = rightContribNorm n g k := by
    funext t; unfold rightContribNorm; rw [hRC]
  have h4 : leftContribNorm n f k = leftContribNorm n g k := by
    funext t; unfold leftContribNorm; rw [hLC]
  have h5 : contributionRaw n f k = contributionRaw n g k := by
    funext t; unfold contributionRaw; rw [h3, h4]
  have h6 : contribution n f k = contribution n g k := by
    funext t; unfold contribution minCR maxCR; rw [h5]
  have h7 : effortRaw n f k = effortRaw n g k := by
    funext t; unfold effortRaw; rw [h2, h6]
  have h8 : effort n f k = effort n g k := by
    funext t; unfold effort; rw [h7]
  unfold coreScores
  rw [h2, h6, h8]

theorem headD_length_of_sq {A : List (List ℚ)} {n : ℕ} (hA : A.length = n)
    (hn : n ≠ 0) (hsq : ∀ row ∈ A, row.length = n) : (A.headD []).length = n := by
  match A with
  | [] => exact absurd (hA.symm) hn
  | r :: rest => exact hsq r (List.mem_cons_self r rest)

theorem le_maxWith0 (n : ℕ) (g : ℕ → ℚ) {t : ℕ} (ht : t < n) : g t ≤ maxWith0 n g :=
  le_foldl_max_mem _ 0 (List.mem_map_of_mem g (List.mem_range.mpr ht))

theorem maxWith0_attained (n : ℕ) (g : ℕ → ℚ) (h : ∃ t, t < n ∧ 0 ≤ g t) :
    ∃ t, t < n ∧ g t = maxWith0 n g := by
  rcases foldl_max_mem ((List.range n).map g) 0 with h1 | h1
  · obtain ⟨t0, ht0, hg⟩ := h
    refine ⟨t0, ht0, le_antisymm (le_maxWith0 n g ht0) ?_⟩
    rw [maxWith0, h1]
    exact hg
  · rcases List.mem_map.mp h1 with ⟨t, htm, hgt⟩
    exact ⟨t, List.mem_range.mp htm, hgt⟩

theorem minWith0_le (n : ℕ) (g : ℕ → ℚ) {t : ℕ} (ht : t < n) : minWith0 n g ≤ g t :=
  foldl_min_le_mem _ 0 (List.mem_map_of_mem g (List.mem_range.mpr ht))

theorem minWith0_attained (n : ℕ) (g : ℕ → ℚ) (h : ∃ t, t < n ∧ g t ≤ 0) :
    ∃ t, t < n ∧ g t = minWith0 n g := by
  rcases foldl_min_mem ((List.range n).map g) 0 with h1 | h1
  · obtain ⟨t0, ht0, hg⟩ := h
    refine ⟨t0, ht0, le_antisymm ?_ (minWith0_le n g ht0)⟩
    rw [minWith0, h1]
    exact hg
  · rcases List.mem_map.mp h1 with ⟨t, htm, hgt⟩
    exact ⟨t, List.mem_range.mp htm, hgt⟩

theorem rightContrib_nonneg (n : ℕ) (f : ℕ → ℕ → ℚ) (k : ℕ → ℚ)
    (hf : ∀ t s, 0 ≤ f t s) (hk : ∀ s, 0 ≤ k s) (t : ℕ) :
    0 ≤ rightContrib n f k t := by
  refine Finset.sum_nonneg fun s _ => ?_
  split_ifs
  · have hc : (0 : ℚ) ≤ 1 + ((s - t : ℕ) : ℚ) := by positivity
    exact div_nonneg (mul_nonneg (hf t s) (hk s)) hc
  · exact le_refl 0

theorem leftContrib_nonneg (n : ℕ) (f : ℕ → ℕ → ℚ) (k : ℕ → ℚ)
    (hf : ∀ t s, 0 ≤ f t s) (hk : ∀ s, 0 ≤ k s) (t : ℕ) :
    0 ≤ leftContrib n f k t := by
  refine Finset.sum_nonneg fun s _ => ?_
  split_ifs
  · have hc : (0 : ℚ) ≤ 1 + ((t - s : ℕ) : ℚ) := by positivity
    exact div_nonneg (mul_nonneg (hf t s) (hk s)) hc
  · exact le_refl 0

theorem rightContribNorm_nonneg (n : ℕ) (f : ℕ → ℕ → ℚ) (k : ℕ → ℚ)
    (hf : ∀ t s, 0 ≤ f t s) (hk : ∀ s, 0 ≤ k s) (t : ℕ) :
    0 ≤ rightContribNorm n f k t := by
  rw [rightContribNorm]
  split_ifs with h
  · exact div_nonneg (rightContrib_nonneg n f k hf hk t) (le_of_lt h)
  · exact le_refl 0

theorem leftContribNorm_nonneg (n : ℕ) (f : ℕ → ℕ → ℚ) (k : ℕ → ℚ)
    (hf : ∀ t s, 0 ≤ f t s) (hk : ∀ s, 0 ≤ k s) (t : ℕ) :
    0 ≤ leftContribNorm n f k t := by
  rw [leftContribNorm]
  split_ifs with h
  · exact div_nonneg (leftContrib_nonneg n f k hf hk t) (le_of_lt h)
  · exact le_refl 0

theorem rightContrib_last (n : ℕ) (f : ℕ → ℕ → ℚ) (k : ℕ → ℚ) :
    rightContrib n f k (n - 1) = 0 := by
  refine Finset.sum_eq_zero fun s hs => ?_
  rw [if_neg]
  have := Finset.mem_range.mp hs
  omega

theorem leftContrib_first (n : ℕ) (f : ℕ → ℕ → ℚ) (k : ℕ → ℚ) :
    leftContrib n f k 0 = 0 := by
  refine Finset.sum_eq_zero fun s _ => ?_
  rw [if_neg]
  omega

theorem contributionRaw_last_nonpos (n : ℕ) (f : ℕ → ℕ → ℚ) (k : ℕ → ℚ)
    (hf : ∀ t s, 0 ≤ f t s) (hk : ∀ s, 0 ≤ k s) :
    contributionRaw n f k (n - 1) ≤ 0 := by
  rw [contributionRaw]
  have h1 : rightContribNorm n f k (n - 1) = 0 := by
    rw [rightContribNorm]
    split_ifs with h
    · rw [rightContrib_last, zero_div]
    · rfl
  have h2 := leftContribNorm_nonneg n f k hf hk (n - 1)
  rw [h1]
  linarith

theorem contributionRaw_first_nonneg (n : ℕ) (f : ℕ → ℕ → ℚ) (k : ℕ → ℚ)
    (hf : ∀ t s, 0 ≤ f t s) (hk : ∀ s, 0 ≤ k s) :
    0 ≤ contributionRaw n f k 0 := by
  rw [contributionRaw]
  have h1 : leftContribNorm n f k 0 = 0 := by
    rw [leftContribNorm]
    split_ifs with h
    · rw [leftContrib_first, zero_div]
    · rfl
  have h2 := rightContribNorm_nonneg n f k hf hk 0
  rw [h1]
  linarith

end Comprehension

/-! ### Claim theorems -/

namespace Claims

open Correlation Heatmap Comprehension

/-- C5: `adjustForKnownUnknown` builds `adjustedAttention` (the source's
`displayAttention`) by zeroing every row `i` with `i ∈ unknownSet` and keeping
every other row equal to the input row; the construction is pure (fresh lists),
so the caller's matrix is untouched, and after adjustment
`adjustedAttention[u][s] = 0` for every `u ∈ unknownSet` and every column `s`. -/
theorem C5_unknown_rows_zeroed (A : List (List ℚ)) (unk : List ℕ) :
    (displayAttention A unk).length = A.length ∧
    (∀ u ∈ unk, ∀ s, entry (displayAttention A unk) u s = 0) ∧
    (∀ i, i ∉ unk → i < A.length →
      (displayAttention A unk).getD i [] = A.getD i []) := by
  refine ⟨length_displayAttention A unk, fun u hu s => ?_,
    fun i hi hlen => displayAttention_getD_not_mem A unk hi hlen⟩
  rw [entry_displayAttention, if_pos hu]

/-- Witness for C5 at a concrete input: row 0 is zeroed, row 1 is copied. -/
theorem C5_unknown_rows_zeroed_witness :
    entry (displayAttention [[1, 2], [3, 4]] [0]) 0 1 = 0 ∧
    (displayAttention [[1, 2], [3, 4]] [0]).getD 1 [] = [3, 4] := by
  refine ⟨(C5_unknown_rows_zeroed [[1, 2], [3, 4]] [0]).2.1 0 (by simp) 1, ?_⟩
  rw [(C5_unknown_rows_zeroed [[1, 2], [3, 4]] [0]).2.2 1 (by simp) (by simp)]
  rfl

/-- C9: `aggregate` returns `provided[i]` equal to the sum of row `i` and
`received[i]` equal to the sum of column `i` (here on the unadjusted matrix:
no token is unknown), and on `A = [[1,0,0],[0.5,0.5,0],[0.2,0.3,0.5]]` it
returns `provided = [1,1,1]` and `received = [1.7,0.8,0.5]`. -/
theorem C9_aggregate_sums (A : List (List ℚ)) (n : ℕ) (hlen : A.length = n)
    (hsq : ∀ row ∈ A, row.length = n) :
    (∀ i < n, (provided A []).getD i 0 = ∑ s ∈ Finset.range n, entry A i s) ∧
    (∀ i < n, (received A []).getD i 0 = ∑ t ∈ Finset.range n, entry A t i) ∧
    provided [[1, 0, 0], [1/2, 1/2, 0], [1/5, 3/10, 1/2]] [] = [1, 1, 1] ∧
    received [[1, 0, 0], [1/2, 1/2, 0], [1/5, 3/10, 1/2]] [] =
      [17/10, 4/5, 1/2] := by
  refine ⟨fun i hi => ?_, fun i hi => ?_, ?_, ?_⟩
  · have hi' : i < A.length := hlen ▸ hi
    rw [provided_getD A [] hi', displayAttention_no_unknown, rowSum_eq]
    have hrow : (A.getD i []).length = n := by
      rw [List.getD_eq_getElem _ _ hi']
      exact hsq _ (A.getElem_mem hi')
    rw [hrow]
    rfl
  · have hi' : i < A.length := hlen ▸ hi
    rw [received_getD A [] hi', displayAttention_no_unknown, colSum_eq, hlen]
  · rw [provided, displayAttention_no_unknown]
    norm_num [rowSum]
  · rw [received, displayAttention_no_unknown]
    rw [show List.range ([[(1:ℚ), 0, 0], [1/2, 1/2, 0], [1/5, 3/10, 1/2]].length)
        = [0, 1, 2] from rfl]
    norm_num [colSum]

/-- Witness for C9 at the example matrix of the claim. -/
theorem C9_aggregate_sums_witness :
    (provided [[1, 0, 0], [1/2, 1/2, 0], [1/5, 3/10, 1/2]] []).getD 0 0 =
      ∑ s ∈ Finset.range 3, entry [[1, 0, 0], [1/2, 1/2, 0], [1/5, 3/10, 1/2]] 0 s ∧
    provided [[1, 0, 0], [1/2, 1/2, 0], [1/5, 3/10, 1/2]] [] = [1, 1, 1] ∧
    received [[1, 0, 0], [1/2, 1/2, 0], [1/5, 3/10, 1/2]] [] = [17/10, 4/5, 1/2] := by
  have h := C9_aggregate_sums [[1, 0, 0], [1/2, 1/2, 0], [1/5, 3/10, 1/2]] 3 rfl
    (by intro row hrow
        simp only [List.mem_cons, List.not_mem_nil, or_false] at hrow
        rcases hrow with h | h | h <;> subst h <;> rfl)
  exact ⟨h.1 0 (by norm_num), h.2.2.1, h.2.2.2⟩

/-- C7: `positionalScore` (`computeComprehension`) fails with the
dimension-mismatch error exactly when a (rectangular) matrix's row count is
nonzero and differs from its column count, and an empty matrix yields empty
output arrays with no error. -/
theorem C7_dimension_check (A : List (List ℚ)) (kn : Option (List ℚ)) (m : ℕ)
    (hrect : ∀ row ∈ A, row.length = m) :
    (A.length = 0 → computeComprehension A kn = .ok ⟨[], [], []⟩) ∧
    (A.length ≠ 0 → A.length ≠ m → ∃ e, computeComprehension A kn = .error e) ∧
    (A.length ≠ 0 → A.length = m → ∃ r, computeComprehension A kn = .ok r) := by
  refine ⟨fun h0 => ?_, fun h0 hm => ?_, fun h0 hm => ?_⟩
  · simp only [computeComprehension, h0, if_pos]
  · match A with
    | [] => exact absurd rfl h0
    | r :: rest =>
      have hr : r.length = m := hrect r (List.mem_cons_self r rest)
      refine ⟨"Attention matrix must be square [n x n].", ?_⟩
      simp only [computeComprehension, List.headD_cons]
      rw [if_neg h0, if_pos (by rwa [hr])]
  · match A with
    | [] => exact absurd rfl h0
    | r :: rest =>
      have hr : r.length = m := hrect r (List.mem_cons_self r rest)
      refine ⟨coreScores (r :: rest).length (entry (r :: rest))
        (kweight kn (r :: rest).length), ?_⟩
      simp only [computeComprehension, List.headD_cons]
      rw [if_neg h0, if_neg (by rw [hr]; simpa using hm)]

/-- Witness for C7: a 3×2 matrix raises the squareness error, the empty
matrix returns empty arrays. -/
theorem C7_dimension_check_witness :
    (∃ e, computeComprehension [[1, 2], [3, 4], [5, 6]] none = .error e) ∧
    computeComprehension ([] : List (List ℚ)) none = .ok ⟨[], [], []⟩ := by
  constructor
  · exact (C7_dimension_check [[1, 2], [3, 4], [5, 6]] none 2
      (by intro row hrow
          simp only [List.mem_cons, List.not_mem_nil, or_false] at hrow
          rcases hrow with h | h | h <;> subst h <;> rfl)).2.1
      (by norm_num) (by norm_num)
  · exact (C7_dimension_check ([] : List (List ℚ)) none 0 (by simp)).1 rfl

/-- C10: `positionalScore` (`computeComprehension`) never reads the diagonal:
two square matrices that differ only in their diagonal entries produce
identical integration, contribution, and effort outputs. -/
theorem C10_diagonal_never_read (A B : List (List ℚ)) (kn : Option (List ℚ))
    (n : ℕ) (hA : A.length = n) (hB : B.length = n)
    (hsqA : ∀ row ∈ A, row.length = n) (hsqB : ∀ row ∈ B, row.length = n)
    (hoff : ∀ t s, s ≠ t → entry A t s = entry B t s) :
    computeComprehension A kn = computeComprehension B kn := by
  by_cases hn : n = 0
  · subst hn
    have hA0 : A = [] := List.length_eq_zero.mp hA
    have hB0 : B = [] := List.length_eq_zero.mp hB
    rw [hA0, hB0]
  · have hmA := headD_length_of_sq hA hn hsqA
    have hmB := headD_length_of_sq hB hn hsqB
    simp only [computeComprehension]
    rw [hA, hB, hmA, hmB, if_neg hn, if_neg hn,
      if_neg (by simp : ¬n ≠ n), if_neg (by simp : ¬n ≠ n)]
    exact congrArg Except.ok
      (coreScores_congr_offdiag n (entry A) (entry B) (kweight kn n) hoff)

/-- Witness for C10: two 2×2 matrices differing only on the diagonal give the
same result. -/
theorem C10_diagonal_never_read_witness :
    computeComprehension [[5, 1], [1, 7]] none =
      computeComprehension [[0, 1], [1, 0]] none := by
  refine C10_diagonal_never_read [[5, 1], [1, 7]] [[0, 1], [1, 0]] none 2 rfl rfl
    ?_ ?_ ?_
  · intro row hrow
    simp only [List.mem_cons, List.not_mem_nil, or_false] at hrow
    rcases hrow with h | h <;> subst h <;> rfl
  · intro row hrow
    simp only [List.mem_cons, List.not_mem_nil, or_false] at hrow
    rcases hrow with h | h <;> subst h <;> rfl
  · intro t s hst
    rcases t with _ | _ | t <;> rcases s with _ | _ | s <;>
      simp_all [entry]

/-- C1: `effortTimeline` returns exactly `N` frames for an `N×N` matrix, and
frame `i` is invariant to the entries `A[t][s]` with `s > i`: two matrices
agreeing on all cells with `s ≤ i` produce the same frame `i`. -/
theorem C1_timeline_frames_causal (A B : List (List ℚ)) (kn : Option (List ℚ))
    (n : ℕ) (hA : A.length = n) (hB : B.length = n)
    (hsqA : ∀ row ∈ A, row.length = n) (hsqB : ∀ row ∈ B, row.length = n)
    (i : ℕ) (hi : i < n)
    (hagree : ∀ t s, s ≤ i → entry A t s = entry B t s) :
    (computeEffortTimeline A kn).length = n ∧
    (computeEffortTimeline A kn).getD i [] =
      (computeEffortTimeline B kn).getD i [] := by
  have hn : n ≠ 0 := Nat.pos_iff_ne_zero.mp (lt_of_le_of_lt (Nat.zero_le i) hi)
  have hmask : maskAttentionByReadIndex A i = maskAttentionByReadIndex B i := by
    simp only [maskAttentionByReadIndex]
    rw [hA, hB]
    refine List.map_congr_left fun t _ => ?_
    refine List.map_congr_left fun s _ => ?_
    split_ifs with h
    · exact hagree t s h
    · rfl
  constructor
  · simp only [computeEffortTimeline]
    rw [hA, if_neg hn]
    simp
  · simp only [computeEffortTimeline]
    rw [hA, hB, if_neg hn, if_neg hn,
      getD_range_map _ _ hi, getD_range_map _ _ hi, hmask]

/-- Witness for C1: two 2×2 matrices differing only in column 1 share frame 0
of the timeline, which has 2 frames. -/
theorem C1_timeline_frames_causal_witness :
    (computeEffortTimeline [[1, 2], [1, 3]] none).length = 2 ∧
    (computeEffortTimeline [[1, 2], [1, 3]] none).getD 0 [] =
      (computeEffortTimeline [[1, 9], [1, 4]] none).getD 0 [] := by
  refine C1_timeline_frames_causal [[1, 2], [1, 3]] [[1, 9], [1, 4]] none 2 rfl rfl
    ?_ ?_ 0 (by norm_num) ?_
  · intro row hrow
    simp only [List.mem_cons, List.not_mem_nil, or_false] at hrow
    rcases hrow with h | h <;> subst h <;> rfl
  · intro row hrow
    simp only [List.mem_cons, List.not_mem_nil, or_false] at hrow
    rcases hrow with h | h <;> subst h <;> rfl
  · intro t s hs
    interval_cases s
    rcases t with _ | _ | t <;> simp [entry]

/-- C3: in `computeComprehension`, the raw contribution at `t` is
`rightContribNorm[t] - 0.5*leftContribNorm[t]` (each side normalized by its
own global max), and the final contribution is min-max normalized over the
whole raw vector, where — for a nonempty nonnegative matrix and nonnegative
weights — the source's `Math.min(0, …)` / `Math.max(0, …)` are exactly the
actual minimum and maximum of the raw-contribution vector. -/
theorem C3_contribution_minmax (A : List (List ℚ)) (kn : Option (List ℚ))
    (n : ℕ) (hA : A.length = n) (hn : 1 ≤ n) (hsq : ∀ row ∈ A, row.length = n)
    (hnn : ∀ t s, 0 ≤ entry A t s) (hkw : ∀ s, 0 ≤ kweight kn n s)
    (hlt : minCR n (entry A) (kweight kn n) < maxCR n (entry A) (kweight kn n)) :
    ∃ r, computeComprehension A kn = .ok r ∧
      (∀ t < n, contributionRaw n (entry A) (kweight kn n) t =
        rightContribNorm n (entry A) (kweight kn n) t -
          (1/2) * leftContribNorm n (entry A) (kweight kn n) t) ∧
      (∃ t0, t0 < n ∧ contributionRaw n (entry A) (kweight kn n) t0 =
        minCR n (entry A) (kweight kn n)) ∧
      (∀ t < n, minCR n (entry A) (kweight kn n) ≤
        contributionRaw n (entry A) (kweight kn n) t) ∧
      (∃ t1, t1 < n ∧ contributionRaw n (entry A) (kweight kn n) t1 =
        maxCR n (entry A) (kweight kn n)) ∧
      (∀ t < n, contributionRaw n (entry A) (kweight kn n) t ≤
        maxCR n (entry A) (kweight kn n)) ∧
      (∀ t < n, r.provisionQuality.getD t 0 =
        (contributionRaw n (entry A) (kweight kn n) t -
            minCR n (entry A) (kweight kn n)) /
          (maxCR n (entry A) (kweight kn n) -
            minCR n (entry A) (kweight kn n))) := by
  have hn0 : n ≠ 0 := by omega
  have hm := headD_length_of_sq hA hn0 hsq
  refine ⟨coreScores n (entry A) (kweight kn n), ?_, fun t _ => rfl, ?_, ?_, ?_, ?_, ?_⟩
  · simp only [computeComprehension]
    rw [hA, hm, if_neg hn0, if_neg (by simp : ¬n ≠ n)]
  · rw [minCR]
    exact minWith0_attained n _
      ⟨n - 1, by omega, contributionRaw_last_nonpos n _ _ hnn hkw⟩
  · intro t ht
    rw [minCR]
    exact minWith0_le n _ ht
  · rw [maxCR]
    exact maxWith0_attained n _
      ⟨0, by omega, contributionRaw_first_nonneg n _ _ hnn hkw⟩
  · intro t ht
    rw [maxCR]
    exact le_maxWith0 n _ ht
  · intro t ht
    have hq : (coreScores n (entry A) (kweight kn n)).provisionQuality =
        (List.range n).map (contribution n (entry A) (kweight kn n)) := rfl
    rw [hq, getD_range_map _ _ ht, contribution, if_pos hlt]

/-- Witness for C3 at `A = [[0,1],[1,0]]` with no knownness weights. -/
theorem C3_contribution_minmax_witness :
    ∃ r, computeComprehension [[0, 1], [1, 0]] none = .ok r ∧
      (∀ t < 2, contributionRaw 2 (entry [[0, 1], [1, 0]]) (kweight none 2) t =
        rightContribNorm 2 (entry [[0, 1], [1, 0]]) (kweight none 2) t -
          (1/2) * leftContribNorm 2 (entry [[0, 1], [1, 0]]) (kweight none 2) t) ∧
      (∃ t0, t0 < 2 ∧ contributionRaw 2 (entry [[0, 1], [1, 0]]) (kweight none 2) t0 =
        minCR 2 (entry [[0, 1], [1, 0]]) (kweight none 2)) ∧
      (∀ t < 2, minCR 2 (entry [[0, 1], [1, 0]]) (kweight none 2) ≤
        contributionRaw 2 (entry [[0, 1], [1, 0]]) (kweight none 2) t) ∧
      (∃ t1, t1 < 2 ∧ contributionRaw 2 (entry [[0, 1], [1, 0]]) (kweight none 2) t1 =
        maxCR 2 (entry [[0, 1], [1, 0]]) (kweight none 2)) ∧
      (∀ t < 2, contributionRaw 2 (entry [[0, 1], [1, 0]]) (kweight none 2) t ≤
        maxCR 2 (entry [[0, 1], [1, 0]]) (kweight none 2)) ∧
      (∀ t < 2, r.provisionQuality.getD t 0 =
        (contributionRaw 2 (entry [[0, 1], [1, 0]]) (kweight none 2) t -
            minCR 2 (entry [[0, 1], [1, 0]]) (kweight none 2)) /
          (maxCR 2 (entry [[0, 1], [1, 0]]) (kweight none 2) -
            minCR 2 (entry [[0, 1], [1, 0]]) (kweight none 2))) := by
  have hmin : minCR 2 (entry [[0, 1], [1, 0]]) (kweight none 2) = -(1/2) := by
    norm_num [minCR, minWith0, maxWith0, contributionRaw, rightContribNorm,
      leftContribNorm, rightContrib, leftContrib, Finset.sum_range_succ,
      entry, kweight, show List.range 2 = [0, 1] from rfl, List.foldl,
      max_def, min_def]
  have hmax : maxCR 2 (entry [[0, 1], [1, 0]]) (kweight none 2) = 1 := by
    norm_num [maxCR, minWith0, maxWith0, contributionRaw, rightContribNorm,
      leftContribNorm, rightContrib, leftContrib, Finset.sum_range_succ,
      entry, kweight, show List.range 2 = [0, 1] from rfl, List.foldl,
      max_def, min_def]
  refine C3_contribution_minmax [[0, 1], [1, 0]] none 2 rfl (by norm_num) ?_ ?_ ?_ ?_
  · intro row hrow
    simp only [List.mem_cons, List.not_mem_nil, or_false] at hrow
    rcases hrow with h | h <;> subst h <;> rfl
  · intro t s
    rcases t with _ | _ | t <;> rcases s with _ | _ | s <;> norm_num [entry]
  · intro s
    norm_num [kweight]
  · rw [hmin, hmax]
    norm_num

/-- C4 (amended: the strictly-boosted providers are the tokens `j ≠ k` with
`A[j][k] > 0`; the source's loop skips `j = iKnown`, so a token whose own
diagonal entry is positive is not boosted): after `adjustForKnownUnknown`
with `k` known and no unknown tokens, `normReceived[k] = 1` exactly, and
every `j ≠ k` with `A[j][k] > 0` has `normProvided[j]` strictly above its
pre-known-adjustment value, provided the prior `normReceived[k] < 1`. -/
theorem C4_known_token_invariant (A : List (List ℚ)) (knownL punct : List ℕ)
    (k j : ℕ) (hk : k ∈ knownL) (hcol : ∀ t, 0 ≤ entry A t k)
    (hprev : normReceived0 A [] punct k < 1) (hjk : j ≠ k)
    (hpos : 0 < entry A j k) :
    normReceivedFinal A [] knownL punct k = 1 ∧
    normProvided0 A [] punct j < normProvidedFinal A [] knownL punct j := by
  constructor
  · rw [normReceivedFinal, adjustState, foldl_knownStep_fst, if_pos hk]
  · rw [normProvidedFinal, adjustState]
    exact foldl_knownStep_snd_lt A knownL
      (normReceived0 A [] punct, normProvided0 A [] punct) hk hprev hcol hjk hpos

/-- Witness for C4: `A = [[1,1],[1,0]]`, token 1 known; provider 0 is
strictly boosted and `normReceived[1]` is pinned to 1. -/
theorem C4_known_token_invariant_witness :
    normReceivedFinal [[1, 1], [1, 0]] [] [1] [] 1 = 1 ∧
    normProvided0 [[1, 1], [1, 0]] [] [] 0 <
      normProvidedFinal [[1, 1], [1, 0]] [] [1] [] 0 := by
  refine C4_known_token_invariant [[1, 1], [1, 0]] [1] [] 1 0 (by simp) ?_ ?_
    (by norm_num) ?_
  · intro t
    rcases t with _ | _ | t <;> norm_num [entry]
  · norm_num [normReceived0, received, originalMinReceived, originalMaxReceived,
      nonPunctuationOriginalReceived, displayAttention_no_unknown, colSum,
      listMinD, listMaxD, show List.range 2 = [0, 1] from rfl, List.foldl,
      min_def, max_def]
  · norm_num [entry]

/-- Counterexample for C4 as stated: for `A = [[1,1],[1,1]]` with token 1
known (prior `normReceived[1] = 0 < 1`) the token `j = 1` satisfies
`A[j][1] > 0`, yet its `normProvided` is NOT strictly increased — the source
skips `j = iKnown`, so the claim's "every token j with A[j][k] > 0" fails. -/
theorem C4_counterexample_self_provider :
    0 < entry [[1, 1], [1, 1]] 1 1 ∧
    normReceived0 [[1, 1], [1, 1]] [] [] 1 < 1 ∧
    normProvidedFinal [[1, 1], [1, 1]] [] [1] [] 1 =
      normProvided0 [[1, 1], [1, 1]] [] [] 1 := by
  refine ⟨by norm_num [entry], ?_, ?_⟩
  · norm_num [normReceived0, received, originalMinReceived, originalMaxReceived,
      nonPunctuationOriginalReceived, displayAttention_no_unknown, colSum,
      listMinD, listMaxD, show List.range 2 = [0, 1] from rfl, List.foldl,
      min_def, max_def]
  · norm_num [normProvidedFinal, adjustState, knownStep, List.foldl,
      normReceived0, normProvided0, received, provided,
      originalMinReceived, originalMaxReceived, nonPunctuationOriginalReceived,
      minProvided, maxProvided, nonUnknownNonPunctuationIndices,
      displayAttention_no_unknown, colSum, rowSum, entry,
      listMinD, listMaxD, show List.range 2 = [0, 1] from rfl,
      min_def, max_def]

/-- C6 (amended: the unknown policy zeroes the token's attention row, but the
token is NOT skipped from the known-boost loop — its `normReceived` is still
pinned to 1 and delta is still distributed to its providers, with shares read
from the original matrix). -/
theorem C6_both_sets_not_skipped (A : List (List ℚ)) (unk knownL punct : List ℕ)
    (k j : ℕ) (hu : k ∈ unk) (hkn : k ∈ knownL) (hcol : ∀ t, 0 ≤ entry A t k)
    (hprev : normReceived0 A unk punct k < 1) (hjk : j ≠ k)
    (hpos : 0 < entry A j k) :
    (∀ s, entry (displayAttention A unk) k s = 0) ∧
    normReceivedFinal A unk knownL punct k = 1 ∧
    normProvided0 A unk punct j < normProvidedFinal A unk knownL punct j := by
  refine ⟨fun s => by rw [entry_displayAttention, if_pos hu], ?_, ?_⟩
  · rw [normReceivedFinal, adjustState, foldl_knownStep_fst, if_pos hkn]
  · rw [normProvidedFinal, adjustState]
    exact foldl_knownStep_snd_lt A knownL
      (normReceived0 A unk punct, normProvided0 A unk punct) hkn hprev hcol hjk
      hpos

/-- Witness for C6 (amended) at `A = [[1,1],[1,0]]` with token 0 in both
sets. -/
theorem C6_both_sets_not_skipped_witness :
    (∀ s, entry (displayAttention [[1, 1], [1, 0]] [0]) 0 s = 0) ∧
    normReceivedFinal [[1, 1], [1, 0]] [0] [0] [] 0 = 1 ∧
    normProvided0 [[1, 1], [1, 0]] [0] [] 1 <
      normProvidedFinal [[1, 1], [1, 0]] [0] [0] [] 1 := by
  refine C6_both_sets_not_skipped [[1, 1], [1, 0]] [0] [0] [] 0 1 (by simp)
    (by simp) ?_ ?_ (by norm_num) ?_
  · intro t
    rcases t with _ | _ | t <;> norm_num [entry]
  · norm_num [normReceived0, received, originalMinReceived, originalMaxReceived,
      nonPunctuationOriginalReceived, displayAttention, colSum,
      listMinD, listMaxD, show List.range 2 = [0, 1] from rfl, List.foldl,
      min_def, max_def]
  · norm_num [entry]

/-- Counterexample for C6 as stated: with `A = [[1,1],[1,0]]` and token 0 in
both `unknownSet` and `knownSet`, the claim says token 0 is skipped from the
known-boost loop (its `normReceived` not pinned to 1, no delta distributed);
the source still processes it: `normReceived[0]` goes from 0 to exactly 1,
and provider 1's `normProvided` is boosted from 0 to 1/2. -/
theorem C6_counterexample_processed :
    normReceived0 [[1, 1], [1, 0]] [0] [] 0 = 0 ∧
    normReceivedFinal [[1, 1], [1, 0]] [0] [0] [] 0 = 1 ∧
    normProvided0 [[1, 1], [1, 0]] [0] [] 1 = 0 ∧
    normProvidedFinal [[1, 1], [1, 0]] [0] [0] [] 1 = 1/2 := by
  refine ⟨?_, ?_, ?_, ?_⟩ <;>
    norm_num [normReceivedFinal, normProvidedFinal, adjustState, knownStep,
      List.foldl, normReceived0, normProvided0, received, provided,
      originalMinReceived, originalMaxReceived, nonPunctuationOriginalReceived,
      minProvided, maxProvided, nonUnknownNonPunctuationIndices,
      displayAttention, colSum, rowSum, entry,
      listMinD, listMaxD, show List.range 2 = [0, 1] from rfl,
      min_def, max_def]

/-- C2 (amended: the totals and per-provider shares of the known-token boost
are computed from the ORIGINAL attention matrix, not from `adjustedAttention`
with unknown rows zeroed): for a known token `k` with `totalToK = Σ_j A[j][k]
> 0` and `delta = 1 - prevNormReceived > 0`, exactly the providers `j ≠ k`
with `A[j][k] > 0` receive `(A[j][k] / totalToK) * delta` on `normProvided[j]`. -/
theorem C2_boost_from_original_matrix (A : List (List ℚ)) (unk punct : List ℕ)
    (k j : ℕ) (htot : 0 < colSum A k)
    (hprev : normReceived0 A unk punct k < 1) :
    (colSum A k = ∑ t ∈ Finset.range A.length, entry A t k) ∧
    ((j ≠ k ∧ 0 < entry A j k) →
      normProvidedFinal A unk [k] punct j =
        normProvided0 A unk punct j +
          entry A j k / colSum A k * (1 - normReceived0 A unk punct k)) ∧
    (normProvidedFinal A unk [k] punct j ≠ normProvided0 A unk punct j ↔
      (j ≠ k ∧ 0 < entry A j k)) := by
  have hfin : normProvidedFinal A unk [k] punct j =
      (knownStep A (normReceived0 A unk punct, normProvided0 A unk punct) k).2 j := by
    rw [normProvidedFinal, adjustState, List.foldl_cons, List.foldl_nil]
  refine ⟨colSum_eq A k, fun h => ?_, ?_⟩
  · rw [hfin]
    exact knownStep_snd_boost A _ htot hprev h.1 h.2
  · constructor
    · intro hne
      by_contra h
      rw [hfin, knownStep_snd_eq_of_not A _ h] at hne
      exact hne rfl
    · intro h
      rw [hfin, knownStep_snd_boost A _ htot hprev h.1 h.2]
      have hadd : 0 < entry A j k / colSum A k * (1 - normReceived0 A unk punct k) :=
        mul_pos (div_pos h.2 htot) (by linarith)
      intro heq
      nlinarith [heq]

/-- Witness for C2 (amended) at `A = [[0,1],[0,0]]`, `unknown = {0}`,
`known = {1}`: provider 0 receives exactly `(A[0][1]/1) * 1 = 1`. -/
theorem C2_boost_from_original_matrix_witness :
    (colSum [[0, 1], [0, 0]] 1 =
      ∑ t ∈ Finset.range 2, entry [[0, 1], [0, 0]] t 1) ∧
    (((0 : ℕ) ≠ 1 ∧ 0 < entry [[0, 1], [0, 0]] 0 1) →
      normProvidedFinal [[0, 1], [0, 0]] [0] [1] [] 0 =
        normProvided0 [[0, 1], [0, 0]] [0] [] 0 +
          entry [[0, 1], [0, 0]] 0 1 / colSum [[0, 1], [0, 0]] 1 *
            (1 - normReceived0 [[0, 1], [0, 0]] [0] [] 1)) ∧
    (normProvidedFinal [[0, 1], [0, 0]] [0] [1] [] 0 ≠
        normProvided0 [[0, 1], [0, 0]] [0] [] 0 ↔
      ((0 : ℕ) ≠ 1 ∧ 0 < entry [[0, 1], [0, 0]] 0 1)) := by
  refine C2_boost_from_original_matrix [[0, 1], [0, 0]] [0] [] 1 0 ?_ ?_
  · norm_num [colSum, List.foldl]
  · norm_num [normReceived0, received, originalMinReceived, originalMaxReceived,
      nonPunctuationOriginalReceived, displayAttention, colSum,
      listMinD, listMaxD, show List.range 2 = [0, 1] from rfl, List.foldl,
      min_def, max_def]

/-- Counterexample for C2 as stated: with `A = [[0,1],[0,0]]`, `unknown =
{0}`, `known = {1}`, provider 0 has `adjustedAttention[0][1] = 0` (its row is
zeroed), so under the claim it must receive no addition; the source reads the
original matrix and boosts `normProvided[0]` from 0 to 1. -/
theorem C2_counterexample_zeroed_provider_boosted :
    entry (displayAttention [[0, 1], [0, 0]] [0]) 0 1 = 0 ∧
    normProvided0 [[0, 1], [0, 0]] [0] [] 0 = 0 ∧
    normProvidedFinal [[0, 1], [0, 0]] [0] [1] [] 0 = 1 := by
  refine ⟨by rw [entry_displayAttention, if_pos (by simp)], ?_, ?_⟩ <;>
    norm_num [normProvidedFinal, adjustState, knownStep, List.foldl,
      normReceived0, normProvided0, received, provided,
      originalMinReceived, originalMaxReceived, nonPunctuationOriginalReceived,
      minProvided, maxProvided, nonUnknownNonPunctuationIndices,
      displayAttention, colSum, rowSum, entry,
      listMinD, listMaxD, show List.range 2 = [0, 1] from rfl,
      min_def, max_def]

/-- C8: in the combined score, the raw sum of token `i` is `received[i]`
alone when `i` is unknown and `received[i] + provided[i]` otherwise (sums of
the adjusted matrix), and the raw sums are min-max normalized over the
non-punctuation indices — the range endpoints being the true minimum and
maximum of the non-punctuation raw sums — with punctuation mapped to 0. -/
theorem C8_combined_score_normalization (A : List (List ℚ)) (unk punct : List ℕ)
    (n : ℕ) (hA : A.length = n) (hsq : ∀ row ∈ A, row.length = n)
    (hne : nonPunctuationRawSums A unk punct ≠ [])
    (hlt : minRawSum A unk punct < maxRawSum A unk punct) :
    (∀ i ∈ punct, normalizedSums A unk punct i = 0) ∧
    (∀ i, i ∉ punct → normalizedSums A unk punct i =
      (rawSumAt A unk i - minRawSum A unk punct) /
        (maxRawSum A unk punct - minRawSum A unk punct)) ∧
    (minRawSum A unk punct ∈ nonPunctuationRawSums A unk punct ∧
      ∀ x ∈ nonPunctuationRawSums A unk punct, minRawSum A unk punct ≤ x) ∧
    (maxRawSum A unk punct ∈ nonPunctuationRawSums A unk punct ∧
      ∀ x ∈ nonPunctuationRawSums A unk punct, x ≤ maxRawSum A unk punct) ∧
    (∀ i < n, rawSumAt A unk i =
      if i ∈ unk then
        ∑ t ∈ Finset.range n, entry (displayAttention A unk) t i
      else
        (∑ t ∈ Finset.range n, entry (displayAttention A unk) t i) +
          ∑ s ∈ Finset.range n, entry (displayAttention A unk) i s) := by
  refine ⟨fun i hi => by rw [normalizedSums, if_pos hi], fun i hi => ?_, ?_, ?_, ?_⟩
  · rw [normalizedSums, if_neg hi,
      if_pos (ne_of_gt (sub_pos.mpr hlt))]
  · exact ⟨listMinD_mem _ 0 hne, fun x hx => listMinD_le _ 0 hx⟩
  · exact ⟨listMaxD_mem _ 1 hne, fun x hx => le_listMaxD _ 1 hx⟩
  · intro i hi
    have hi' : i < A.length := hA ▸ hi
    have hrecv : (received A unk).getD i 0 =
        ∑ t ∈ Finset.range n, entry (displayAttention A unk) t i := by
      rw [received_getD A unk hi', colSum_eq, length_displayAttention, hA]
    by_cases hu : i ∈ unk
    · rw [rawSumAt, if_pos hu, if_pos hu, hrecv]
    · have hrowlen : ((displayAttention A unk).getD i []).length = n := by
        rw [displayAttention_getD_not_mem A unk hu hi',
          List.getD_eq_getElem _ _ hi']
        exact hsq _ (A.getElem_mem hi')
      rw [rawSumAt, if_neg hu, if_neg hu, hrecv,
        provided_getD A unk hi', rowSum_eq, hrowlen]
      rfl

/-- Witness for C8 at `A = [[1,0],[0,3]]` with no unknown or punctuation
tokens. -/
theorem C8_combined_score_normalization_witness :
    (∀ i ∈ ([] : List ℕ), normalizedSums [[1, 0], [0, 3]] [] [] i = 0) ∧
    (∀ i, i ∉ ([] : List ℕ) → normalizedSums [[1, 0], [0, 3]] [] [] i =
      (rawSumAt [[1, 0], [0, 3]] [] i - minRawSum [[1, 0], [0, 3]] [] []) /
        (maxRawSum [[1, 0], [0, 3]] [] [] - minRawSum [[1, 0], [0, 3]] [] [])) ∧
    (minRawSum [[1, 0], [0, 3]] [] [] ∈ nonPunctuationRawSums [[1, 0], [0, 3]] [] [] ∧
      ∀ x ∈ nonPunctuationRawSums [[1, 0], [0, 3]] [] [],
        minRawSum [[1, 0], [0, 3]] [] [] ≤ x) ∧
    (maxRawSum [[1, 0], [0, 3]] [] [] ∈ nonPunctuationRawSums [[1, 0], [0, 3]] [] [] ∧
      ∀ x ∈ nonPunctuationRawSums [[1, 0], [0, 3]] [] [],
        x ≤ maxRawSum [[1, 0], [0, 3]] [] []) ∧
    (∀ i < 2, rawSumAt [[1, 0], [0, 3]] [] i =
      if i ∈ ([] : List ℕ) then
        ∑ t ∈ Finset.range 2, entry (displayAttention [[1, 0], [0, 3]] []) t i
      else
        (∑ t ∈ Finset.range 2, entry (displayAttention [[1, 0], [0, 3]] []) t i) +
          ∑ s ∈ Finset.range 2, entry (displayAttention [[1, 0], [0, 3]] []) i s) := by
  refine C8_combined_score_normalization [[1, 0], [0, 3]] [] [] 2 rfl ?_ ?_ ?_
  · intro row hrow
    simp only [List.mem_cons, List.not_mem_nil, or_false] at hrow
    rcases hrow with h | h <;> subst h <;> rfl
  · norm_num [nonPunctuationRawSums, show List.range 2 = [0, 1] from rfl]
    exact List.cons_ne_nil _ _
  · norm_num [minRawSum, maxRawSum, nonPunctuationRawSums, rawSumAt, received,
      provided, displayAttention_no_unknown, colSum, rowSum, listMinD, listMaxD,
      show List.range 2 = [0, 1] from rfl, List.foldl, min_def, max_def]

end Claims
